import Mathlib

/-!
# Verification of the rusty-kaspa difficulty / DAG-traversal core

Shallow embedding of `consensus/src/processes/difficulty.rs` and
`consensus/src/processes/traversal_manager.rs`.  Hashes and wide unsigned
integers (`BlueWorkType = Uint192`, `Uint256`, `Uint320`) are modelled as
`Nat`; the code under scrutiny performs no wrapping arithmetic on them
(an overflow in the Rust code is a fatal panic; fatal panics on modelled
paths are rendered as `none`).  External capability interfaces (header
store, ghostdag store, reachability service, relations store) are modelled
as records of total functions, exactly as the Rust code consumes them
through read-only traits.  Loops whose termination rests on store-supplied
data are given an explicit fuel argument; running out of fuel is `none`,
distinct from every value the Rust code can return.

The file has two parts: all definitions first, then the theorems.
-/

namespace Kaspa

/-- `SortableBlock { hash, blue_work }` from `processes/ghostdag/ordering.rs`:
the consensus ordering primitive. -/
structure SortableBlock where
  hash : Nat
  blueWork : Nat
deriving DecidableEq, Repr

/-- `Ord for SortableBlock`, strict version: compare `blue_work`, tie-break
by `hash` (both ascending). -/
def sbLt (a b : SortableBlock) : Bool :=
  decide (a.blueWork < b.blueWork ∨ (a.blueWork = b.blueWork ∧ a.hash < b.hash))

/-- Non-strict `SortableBlock` comparison. -/
def sbLe (a b : SortableBlock) : Bool :=
  decide (a.blueWork < b.blueWork ∨ (a.blueWork = b.blueWork ∧ a.hash ≤ b.hash))

/-- `BlockWindowHeap = BinaryHeap<Reverse<SortableBlock>>`, modelled as the
list of its elements (the `Reverse` wrapper is folded into the operations).
A Rust `BinaryHeap` over `Reverse<SortableBlock>` has its maximum — maximal
under the reversed order, hence the `SortableBlock`-minimum — at the root,
so `peek`/`pop` see the block of least blue work. -/
abbrev BlockWindowHeap := List SortableBlock

/-- `BinaryHeap<Reverse<SortableBlock>>::peek`: the root is the greatest
`Reverse` element, i.e. the least `SortableBlock`. -/
def heapPeekMin (w : BlockWindowHeap) : Option SortableBlock :=
  w.foldr (fun x acc => match acc with
    | none => some x
    | some y => if sbLt x y then some x else some y) none

/-- `BoundedSizeBlockHeap` (traversal_manager.rs). -/
structure BoundedSizeBlockHeap where
  sizeBound : Nat
  binaryHeap : BlockWindowHeap
deriving DecidableEq, Repr

/-- `BoundedSizeBlockHeap::try_push`.  The Rust code peeks the heap root
(`Reverse`-max = `SortableBlock`-min), rejects when
`*max < Reverse(candidate)` — i.e. when the candidate is strictly below the
held minimum in `SortableBlock` order — and otherwise pops that root and
pushes the candidate. -/
def tryPush (h : BoundedSizeBlockHeap) (hashv blueWork : Nat) :
    Bool × BoundedSizeBlockHeap :=
  let c : SortableBlock := ⟨hashv, blueWork⟩
  if h.binaryHeap.length = h.sizeBound then
    match heapPeekMin h.binaryHeap with
    | some m =>
      if sbLt c m then (false, h)
      else (true, ⟨h.sizeBound, c :: h.binaryHeap.erase m⟩)
    | none => (true, ⟨h.sizeBound, [c]⟩)
  else (true, ⟨h.sizeBound, c :: h.binaryHeap⟩)

/-- A sequence of `try_push` calls, keeping only the final heap. -/
def runPushes (h : BoundedSizeBlockHeap) (cs : List SortableBlock) :
    BoundedSizeBlockHeap :=
  cs.foldl (fun h c => (tryPush h c.hash c.blueWork).2) h

/-- `kept` is exactly the multiset of the `k` largest elements of `seen`
under the `SortableBlock` order: a sub-multiset of size `k` every member of
which dominates everything left out. -/
def IsTopK (k : Nat) (seen kept : Multiset SortableBlock) : Prop :=
  (∀ a, kept.count a ≤ seen.count a) ∧ Multiset.card kept = k ∧
    ∀ x ∈ kept, ∀ y, kept.count y < seen.count y → sbLe y x = true

/-- `CompactHeaderData` as read through `HeaderStoreReader`. -/
structure CompactHeaderData where
  timestamp : Nat
  bits : Nat
  blueWork : Nat
deriving DecidableEq, Repr

/-- `HeaderStoreReader`: a read-only capability interface; lookups the core
performs are `unwrap`ped, so the store is modelled as total functions. -/
structure HeaderStore where
  getCompactHeaderData : Nat → CompactHeaderData
  getDaaScore : Nat → Nat

/-- `DifficultyManager` construction state (difficulty.rs). -/
structure DifficultyManager where
  headersStore : HeaderStore
  genesisBits : Nat
  difficultyAdjustmentWindowSize : Nat
  targetTimePerBlock : Nat

/-- `DifficultyBlock` (difficulty.rs): window member materialized with its
header data.  Its `Ord` compares `timestamp`, then the `SortableBlock`. -/
structure DifficultyBlock where
  timestamp : Nat
  bits : Nat
  sortableBlock : SortableBlock
deriving DecidableEq, Repr

/-- `Ord for DifficultyBlock`, strict: `timestamp`, then `SortableBlock`. -/
def dbLt (a b : DifficultyBlock) : Bool :=
  decide (a.timestamp < b.timestamp ∨
    (a.timestamp = b.timestamp ∧ sbLt a.sortableBlock b.sortableBlock = true))

/-- Non-strict `DifficultyBlock` comparison. -/
def dbLe (a b : DifficultyBlock) : Bool :=
  decide (a.timestamp < b.timestamp ∨
    (a.timestamp = b.timestamp ∧ sbLe a.sortableBlock b.sortableBlock = true))

/-- A default `DifficultyBlock`, used only for provably in-range `getD`s. -/
def dbDefault : DifficultyBlock := ⟨0, 0, ⟨0, 0⟩⟩

/-- One step of `get_difficulty_blocks`: materialize a window member. -/
def mkDifficultyBlock (store : HeaderStore) (sb : SortableBlock) : DifficultyBlock :=
  { timestamp := (store.getCompactHeaderData sb.hash).timestamp
    bits := (store.getCompactHeaderData sb.hash).bits
    sortableBlock := sb }

/-- `DifficultyManager::get_difficulty_blocks`: map the window's iteration
order through the header store. -/
def getDifficultyBlocks (mgr : DifficultyManager) (w : BlockWindowHeap) :
    List DifficultyBlock :=
  w.map (mkDifficultyBlock mgr.headersStore)

/-- `itertools::position_minmax` accumulator walk: scan the remaining list,
replacing the minimum only on a strict decrease (first minimum kept) and the
maximum on a non-strict increase (last maximum kept), as the itertools
contract specifies. -/
def posMinmaxAux : List DifficultyBlock → Nat → Nat × DifficultyBlock →
    Nat × DifficultyBlock → (Nat × DifficultyBlock) × (Nat × DifficultyBlock)
  | [], _, mn, mx => (mn, mx)
  | x :: xs, i, mn, mx =>
    posMinmaxAux xs (i + 1) (if dbLt x mn.2 then (i, x) else mn)
      (if dbLe mx.2 x then (i, x) else mx)

/-- The value-level companion of the minimum scan: fold of
"keep the earlier element unless the new one is strictly smaller". -/
def foldMinDb (x : DifficultyBlock) (xs : List DifficultyBlock) : DifficultyBlock :=
  xs.foldl (fun a y => if dbLt y a then y else a) x

/-- The value-level companion of the maximum scan: fold of
"replace on a non-strict increase". -/
def foldMaxDb (x : DifficultyBlock) (xs : List DifficultyBlock) : DifficultyBlock :=
  xs.foldl (fun a y => if dbLe a y then y else a) x

/-- `difficulty_blocks.iter().position_minmax().into_option()`: `none` on an
empty list, otherwise the positions of the first minimum and last maximum
under the `DifficultyBlock` order. -/
def positionMinmax (l : List DifficultyBlock) : Option (Nat × Nat) :=
  match l with
  | [] => none
  | x :: xs =>
    let r := posMinmaxAux xs 1 (0, x) (0, x)
    some (r.1.1, r.2.1)

/-- `Vec::swap_remove(i)`: replace the element at `i` with the last element
and pop the last slot. -/
def swapRemove {α : Type} (l : List α) (i : Nat) : List α :=
  match l.getLast? with
  | none => []
  | some z => (l.set i z).dropLast

/-- Modelled from the spec: `Uint256::from_compact_target_bits` lives in the
kaspa-math crate, which is not among the supplied sources.  The spec calls
compact target bits "a 32-bit floating-point-like encoding of a large
unsigned proof-of-work target threshold": high byte = base-256 exponent,
low 24 bits = mantissa, target = mantissa shifted by `exponent - 3` bytes
(a right shift when the exponent is below 3), within the 256-bit width. -/
def uint256FromCompactTargetBits (bits : Nat) : Nat :=
  let unshiftedExpt := bits / 2 ^ 24
  let mant := bits % 2 ^ 24
  if unshiftedExpt ≤ 3 then mant / 2 ^ (8 * (3 - unshiftedExpt))
  else (mant * 2 ^ (8 * (unshiftedExpt - 3))) % 2 ^ 256

/-- Byte length of a `Nat` by repeated division; the fuel of 64 covers every
value below `2 ^ 512`, far beyond the 320-bit values this file handles. -/
def byteSizeAux : Nat → Nat → Nat
  | 0, _ => 0
  | fuel + 1, n => if n = 0 then 0 else byteSizeAux fuel (n / 256) + 1

/-- Byte length of a `Nat`. -/
def byteSize (n : Nat) : Nat := byteSizeAux 64 n

/-- Modelled from the spec: `Uint256::compact_target_bits` (kaspa-math, not
among the supplied sources) — the inverse direction of the floating-point-
like encoding: mantissa = the value's top three bytes, exponent = its byte
length; when the mantissa's top bit is set (it would read as a sign bit)
shift the mantissa right one byte and bump the exponent. -/
def compactTargetBits (n : Nat) : Nat :=
  let size := byteSize n
  let compact := if size ≤ 3 then (n * 2 ^ (8 * (3 - size))) % 2 ^ 32
                 else (n / 2 ^ (8 * (size - 3))) % 2 ^ 32
  if compact / 2 ^ 23 % 2 = 1 then compact / 2 ^ 8 + (size + 1) * 2 ^ 24
  else compact + size * 2 ^ 24

/-- `DifficultyManager::calculate_difficulty_bits`.  `none` models the two
fatal panics reachable on this path: the `unwrap` of `position_minmax` on an
empty full-size window, division by zero (empty remainder or a zero
`target_time_per_block`), and the final `Uint256::try_from(..).expect(..)`.
All arithmetic is exact (`Uint320` is wide enough by construction, as the
spec notes). -/
def calculateDifficultyBits (mgr : DifficultyManager) (w : BlockWindowHeap) :
    Option Nat :=
  let difficultyBlocks := getDifficultyBlocks mgr w
  if difficultyBlocks.length < mgr.difficultyAdjustmentWindowSize then
    some mgr.genesisBits
  else
    match positionMinmax difficultyBlocks with
    | none => none
    | some (minTsIndex, maxTsIndex) =>
      let minTs := (difficultyBlocks.getD minTsIndex dbDefault).timestamp
      let maxTs := (difficultyBlocks.getD maxTsIndex dbDefault).timestamp
      let rest := swapRemove difficultyBlocks minTsIndex
      let difficultyBlocksLen := rest.length
      if difficultyBlocksLen = 0 ∨ mgr.targetTimePerBlock = 0 then none
      else
        let targetsSum := (rest.map (fun b => uint256FromCompactTargetBits b.bits)).sum
        let averageTarget := targetsSum / difficultyBlocksLen
        let newTarget := averageTarget * Nat.max (maxTs - minTs) 1 /
          mgr.targetTimePerBlock / difficultyBlocksLen
        if newTarget < 2 ^ 256 then some (compactTargetBits newTarget) else none

/-- `errors/difficulty.rs`: the recoverable conditions of this module. -/
inductive DifficultyError where
  | underMinWindowSizeAllowed (size minSize : Nat)
  | emptyTimestampRange
deriving DecidableEq, Repr

/-- `DifficultyManager::estimate_network_hashes_per_second`.  The outer
`Option` models the `unwrap` of `minmax().into_option()` (unreachable: it is
guarded by the minimum-window-size check); the final `as_u64` cast keeps the
low 64 bits. -/
def estimateNetworkHashesPerSecond (mgr : DifficultyManager)
    (w : BlockWindowHeap) : Option (Except DifficultyError Nat) :=
  let minWindowSize := 1000
  let windowSize := w.length
  if windowSize < minWindowSize then
    some (.error (.underMinWindowSizeAllowed windowSize minWindowSize))
  else if windowSize = 0 then some (.ok 0)
  else
    match getDifficultyBlocks mgr w with
    | [] => none
    | b :: bs =>
      let minTs := (bs.map (·.timestamp)).foldl Nat.min b.timestamp
      let maxTs := (bs.map (·.timestamp)).foldl Nat.max b.timestamp
      if minTs = maxTs then some (.error .emptyTimestampRange)
      else
        let windowDuration := (maxTs - minTs) / 1000
        if windowDuration = 0 then some (.ok 0)
        else
          let minBw := (bs.map (·.sortableBlock.blueWork)).foldl Nat.min
            b.sortableBlock.blueWork
          let maxBw := (bs.map (·.sortableBlock.blueWork)).foldl Nat.max
            b.sortableBlock.blueWork
          some (.ok ((maxBw - minBw) / windowDuration % 2 ^ 64))

/-- `BlueWorkType::MAX`: `BlueWorkType` is the 192-bit `Uint192`. -/
def blueWorkMax : Nat := 2 ^ 192 - 1

/-- Modelled from the spec: `GhostdagData` (model/stores/ghostdag.rs is not
among the supplied sources).  The spec's data model gives
`{selected_parent, mergeset: ordered sequence, ...}`; the core consumes the
mergeset through `ascending_mergeset_without_selected_parent`, so that view —
the mergeset without the selected parent, as `SortableBlock`s in ascending
blue-work order — is what the record carries. -/
structure GhostdagData where
  selectedParent : Nat
  mergesetAscWithoutSelectedParent : List SortableBlock

/-- Modelled from the spec: `GhostdagData::mergeset_size`, "the full mergeset
size" — the ascending view above plus the selected parent itself. -/
def mergesetSize (gd : GhostdagData) : Nat :=
  gd.mergesetAscWithoutSelectedParent.length + 1

/-- The walked sequence of `calc_daa_score_and_non_daa_mergeset_blocks`: the
mergeset in ascending blue-work order chained with the selected parent
carrying its own blue work (`get_blue_work(sp).unwrap_or_default()`). -/
def daaSeq (gd : GhostdagData) (blueWorkOf : Nat → Option Nat) :
    List SortableBlock :=
  gd.mergesetAscWithoutSelectedParent ++
    [⟨gd.selectedParent, (blueWorkOf gd.selectedParent).getD 0⟩]

/-- `window.peek()` with the maximal-blue-work default:
`SortableBlock { hash: Default::default(), blue_work: BlueWorkType::MAX }`. -/
def windowLowestBlock (w : BlockWindowHeap) : SortableBlock :=
  (heapPeekMin w).getD ⟨0, blueWorkMax⟩

/-- `DifficultyManager::calc_daa_score_and_non_daa_mergeset_blocks`.
`blueWorkOf` stands for the ghostdag store's `get_blue_work` (fallible,
defaulted).  The collected `BlockHashSet` is a `Finset Nat`. -/
def calcDaaScoreAndNonDaaMergesetBlocks (mgr : DifficultyManager)
    (w : BlockWindowHeap) (gd : GhostdagData) (blueWorkOf : Nat → Option Nat) :
    Nat × Finset Nat :=
  let seq := daaSeq gd blueWorkOf
  let lowest := windowLowestBlock w
  let mergesetNonDaa : Finset Nat :=
    ((seq.takeWhile (fun b => sbLt b lowest)).map (·.hash)).toFinset
  let spDaaScore := mgr.headersStore.getDaaScore gd.selectedParent
  (spDaaScore + (mergesetSize gd - mergesetNonDaa.card), mergesetNonDaa)

/-- `errors/traversal.rs::TraversalError`. -/
inductive TraversalError where
  | reachedMaxTraversalAllowed (attempted allowed : Nat)
deriving DecidableEq, Repr

/-- The reachability service as the traversal manager consumes it.  The
service itself (reachability crate) is not among the supplied sources;
modelled from the spec's interface description: ancestry oracles plus a
backward selected-chain iterator, `chainFromTip from` being the finite
root-terminated chain starting at `from`. -/
structure Reachability where
  isDagAncestorOf : Nat → Nat → Bool
  isChainAncestorOf : Nat → Nat → Bool
  chainFromTip : Nat → List Nat

/-- `RelationsStoreReader::get_parents`, `unwrap`ped by the caller. -/
structure Relations where
  getParents : Nat → List Nat

/-- The BFS loop of `DagTraversalManager::anticone`.  One unit of fuel per
dequeue; `none` = out of fuel (the Rust loop runs until the queue drains). -/
def anticoneAux (reach : Reachability) (rel : Relations) (block : Nat)
    (maxTraversalAllowed : Option Nat) :
    Nat → List Nat → List Nat → List Nat → Nat →
    Option (Except TraversalError (List Nat))
  | fuel, queue, visited, anticone, traversalCount =>
    match queue with
    | [] => some (.ok anticone)
    | current :: rest =>
      match fuel with
      | 0 => none
      | fuel + 1 =>
        if current ∈ visited then
          anticoneAux reach rel block maxTraversalAllowed fuel rest visited
            anticone traversalCount
        else
          let visited := current :: visited
          if reach.isDagAncestorOf current block then
            anticoneAux reach rel block maxTraversalAllowed fuel rest visited
              anticone traversalCount
          else
            let traversalCount := traversalCount + 1
            match maxTraversalAllowed with
            | some maxAllowed =>
              if maxAllowed < traversalCount then
                some (.error (.reachedMaxTraversalAllowed traversalCount maxAllowed))
              else
                anticoneAux reach rel block maxTraversalAllowed fuel
                  (rest ++ rel.getParents current) visited
                  (if reach.isDagAncestorOf block current then anticone
                   else anticone ++ [current]) traversalCount
            | none =>
              anticoneAux reach rel block maxTraversalAllowed fuel
                (rest ++ rel.getParents current) visited
                (if reach.isDagAncestorOf block current then anticone
                 else anticone ++ [current]) traversalCount

/-- `DagTraversalManager::anticone`. -/
def anticone (reach : Reachability) (rel : Relations) (block : Nat)
    (tips : List Nat) (maxTraversalAllowed : Option Nat) (fuel : Nat) :
    Option (Except TraversalError (List Nat)) :=
  anticoneAux reach rel block maxTraversalAllowed fuel tips [] [] 0

/-- `ChainPath` (consensus-core). -/
structure ChainPath where
  added : List Nat
  removed : List Nat
deriving DecidableEq, Repr

/-- The `removed` loop of `calculate_chain_path`: walk the backward chain,
recording blocks until the first chain-ancestor of the destination (the
common ancestor); `none` when the iterator drains without finding one (the
initial `common_ancestor = from` then stands). -/
def findSplitAux (isCA : Nat → Bool) : List Nat → List Nat × Option Nat
  | [] => ([], none)
  | c :: rest =>
    if isCA c then ([], some c)
    else
      let r := findSplitAux isCA rest
      (c :: r.1, r.2)

/-- Modelled from the spec: `backward_chain_iterator(from, until, inclusive)`
(reachability crate, not among the supplied sources) — the backward chain
from `fromB` truncated at `low`, including `low` itself only when
`inclusive`. -/
def backwardChainList (reach : Reachability) (fromB low : Nat)
    (inclusive : Bool) : List Nat :=
  let pre := (reach.chainFromTip fromB).takeWhile (fun h => h ≠ low)
  if inclusive then pre ++ [low] else pre

/-- `DagTraversalManager::calculate_chain_path`. -/
def calculateChainPath (reach : Reachability) (fromB toB : Nat) : ChainPath :=
  let r := findSplitAux (fun c => reach.isChainAncestorOf c toB)
    (reach.chainFromTip fromB)
  let commonAncestor := r.2.getD fromB
  let added := (backwardChainList reach toB commonAncestor false).reverse
  { added := added, removed := r.1 }

/-- `CompactGhostdagData` as read through `GhostdagStoreReader`. -/
structure CompactGhostdagData where
  blueScore : Nat
  selectedParent : Nat
deriving DecidableEq, Repr

/-- `blockhash::ORIGIN`: a reserved sentinel hash that can never be a real
block; modelled as an identifier outside the 256-bit hash range. -/
def originHash : Nat := 2 ^ 256

/-- `DagTraversalManager` state needed by the chain-ascent query. -/
structure TraversalManager where
  genesisHash : Nat
  getCompactData : Nat → CompactGhostdagData

/-- The ascent loop of `lowest_chain_block_above_or_equal_to_blue_score`:
`while current != genesis { assert !origin; step up unless the selected
parent falls below the target }`.  `none` models the origin assertion firing
or fuel running out. -/
def lowestChainAux (mgr : TraversalManager) (blueScore : Nat) :
    Nat → Nat → CompactGhostdagData → Option Nat
  | fuel, current, currentGd =>
    if current = mgr.genesisHash then some current
    else
      match fuel with
      | 0 => none
      | fuel + 1 =>
        if current = originHash then none
        else
          let selectedParentGd := mgr.getCompactData currentGd.selectedParent
          if selectedParentGd.blueScore < blueScore then some current
          else lowestChainAux mgr blueScore fuel currentGd.selectedParent
            selectedParentGd

/-- `DagTraversalManager::lowest_chain_block_above_or_equal_to_blue_score`.
The leading `none` branch models the `assert!(high_gd.blue_score >=
blue_score)` precondition. -/
def lowestChainBlockAboveOrEqualToBlueScore (mgr : TraversalManager)
    (fuel high blueScore : Nat) : Option Nat :=
  let highGd := mgr.getCompactData high
  if highGd.blueScore < blueScore then none
  else lowestChainAux mgr blueScore fuel high highGd

/-! ## Concrete fixtures used by witnesses and counterexamples -/

/-- A header store whose block `h` has timestamp `h * 1000` and the compact
bits `0x1d00ffff`: a perfectly steady chain at one block per second. -/
def steadyStore : HeaderStore :=
  { getCompactHeaderData := fun h => ⟨h * 1000, 0x1d00ffff, h⟩
    getDaaScore := fun _ => 0 }

/-- A difficulty manager over `steadyStore` with a 10-block window and a
1000 ms target time per block. -/
def steadyMgr : DifficultyManager := ⟨steadyStore, 0x11111111, 10, 1000⟩

/-- Ten window members, hashes `0..9`. -/
def steadyWindow : BlockWindowHeap := (List.range 10).map (fun i => ⟨i, i⟩)

/-- Like `steadyStore` but block `9`'s timestamp is stretched to `10000`, so
the ten timestamps span exactly 10000 ms. -/
def stretchedStore : HeaderStore :=
  { getCompactHeaderData := fun h =>
      ⟨if h = 9 then 10000 else h * 1000, 0x1d00ffff, h⟩
    getDaaScore := fun _ => 0 }

/-- `steadyMgr` over `stretchedStore`. -/
def stretchedMgr : DifficultyManager := ⟨stretchedStore, 0x11111111, 10, 1000⟩

/-- A reachability oracle in which block `1` is a DAG ancestor of block `0`
and nothing else is related. -/
def pastTipReach : Reachability :=
  { isDagAncestorOf := fun a b => decide (a = 1 ∧ b = 0)
    isChainAncestorOf := fun _ _ => false
    chainFromTip := fun _ => [] }

/-- A relations store with a parentless DAG. -/
def emptyRel : Relations := ⟨fun _ => []⟩

/-- A linear-chain reachability oracle: the chain above `x` is
`x, x-1, ..., 0` and chain ancestry is `≤`. -/
def lineReach : Reachability :=
  { isDagAncestorOf := fun _ _ => false
    isChainAncestorOf := fun a b => decide (a ≤ b)
    chainFromTip := fun x => (List.range (x + 1)).reverse }

/-- A linear-chain ghostdag store: block `h` has blue score `h` and selected
parent `h - 1`; genesis is `0`. -/
def lineTraversalMgr : TraversalManager := ⟨0, fun h => ⟨h, h - 1⟩⟩

/-! ## Theorems

First the order-theoretic facts about the two comparators and the heap
peek, then the claims, in order. -/

theorem sbLt_iff (a b : SortableBlock) :
    sbLt a b = true ↔
      a.blueWork < b.blueWork ∨ (a.blueWork = b.blueWork ∧ a.hash < b.hash) := by
  simp [sbLt]

theorem sbLe_iff (a b : SortableBlock) :
    sbLe a b = true ↔
      a.blueWork < b.blueWork ∨ (a.blueWork = b.blueWork ∧ a.hash ≤ b.hash) := by
  simp [sbLe]

theorem sbLe_refl (a : SortableBlock) : sbLe a a = true := by
  simp [sbLe]

theorem sbLe_of_not_lt {a b : SortableBlock} (h : sbLt a b = false) :
    sbLe b a = true := by
  rw [sbLe_iff]
  rw [← Bool.not_eq_true] at h
  rw [sbLt_iff] at h
  push_neg at h
  omega

theorem sbLe_trans {a b c : SortableBlock} (h1 : sbLe a b = true)
    (h2 : sbLe b c = true) : sbLe a c = true := by
  rw [sbLe_iff] at *
  omega

theorem sbLe_antisymm {a b : SortableBlock} (h1 : sbLe a b = true)
    (h2 : sbLe b a = true) : a = b := by
  rw [sbLe_iff] at *
  have hw : a.blueWork = b.blueWork := by omega
  have hh : a.hash = b.hash := by omega
  cases a; cases b; simp_all

theorem sbLe_of_lt {a b : SortableBlock} (h : sbLt a b = true) :
    sbLe a b = true := by
  rw [sbLt_iff] at h
  rw [sbLe_iff]
  omega

theorem sbLt_of_lt_of_le {a b c : SortableBlock} (h1 : sbLt a b = true)
    (h2 : sbLe b c = true) : sbLt a c = true := by
  rw [sbLt_iff] at *
  rw [sbLe_iff] at h2
  omega

theorem heapPeekMin_eq_none_iff (w : BlockWindowHeap) :
    heapPeekMin w = none ↔ w = [] := by
  cases w with
  | nil => simp [heapPeekMin]
  | cons a t =>
    simp only [heapPeekMin, List.foldr_cons]
    constructor
    · intro h
      rcases hm : (t.foldr (fun x acc => match acc with
        | none => some x
        | some y => if sbLt x y then some x else some y) none) with _ | y <;>
        rw [hm] at h <;> simp at h
      split at h <;> simp_all
    · intro h; simp at h

theorem heapPeekMin_spec (w : BlockWindowHeap) (m : SortableBlock)
    (h : heapPeekMin w = some m) : m ∈ w ∧ ∀ x ∈ w, sbLe m x = true := by
  induction w generalizing m with
  | nil => simp [heapPeekMin] at h
  | cons a t ih =>
    simp only [heapPeekMin, List.foldr_cons] at h
    rcases hm : (t.foldr (fun x acc => match acc with
      | none => some x
      | some y => if sbLt x y then some x else some y) none) with _ | y
    · rw [hm] at h
      simp only at h
      have ht : t = [] :=
        (heapPeekMin_eq_none_iff t).mp (by simpa [heapPeekMin] using hm)
      subst ht
      simp at h
      subst h
      exact ⟨by simp, by simp [sbLe_refl]⟩
    · rw [hm] at h
      have ihy := ih y (by simpa [heapPeekMin] using hm)
      simp only at h
      split at h
      · next hlt =>
        simp at h
        subst h
        refine ⟨by simp, ?_⟩
        intro x hx
        rcases List.mem_cons.mp hx with hx | hx
        · subst hx; exact sbLe_refl _
        · exact sbLe_trans (sbLe_of_lt hlt) (ihy.2 x hx)
      · next hlt =>
        simp at h
        subst h
        refine ⟨List.mem_cons_of_mem a ihy.1, ?_⟩
        intro x hx
        rcases List.mem_cons.mp hx with hx | hx
        · subst hx
          exact sbLe_of_not_lt (by simpa using hlt)
        · exact ihy.2 x hx

theorem getDifficultyBlocks_length (mgr : DifficultyManager)
    (w : BlockWindowHeap) : (getDifficultyBlocks mgr w).length = w.length := by
  simp [getDifficultyBlocks]

/-- C7: for every window with fewer members than the configured
`difficulty_adjustment_window_size`, `calculate_difficulty_bits` returns the
network's genesis difficulty bits, regardless of the window's contents. -/
theorem claim_C7 (mgr : DifficultyManager) (w : BlockWindowHeap)
    (h : w.length < mgr.difficultyAdjustmentWindowSize) :
    calculateDifficultyBits mgr w = some mgr.genesisBits := by
  unfold calculateDifficultyBits
  rw [if_pos (by rw [getDifficultyBlocks_length]; exact h)]

theorem claim_C7_witness :
    ([⟨1, 5⟩] : BlockWindowHeap).length < steadyMgr.difficultyAdjustmentWindowSize ∧
      calculateDifficultyBits steadyMgr [⟨1, 5⟩] = some 0x11111111 :=
  ⟨by decide, claim_C7 steadyMgr [⟨1, 5⟩] (by decide)⟩

theorem estimate_under_min (mgr : DifficultyManager) (w : BlockWindowHeap)
    (h : w.length < 1000) :
    estimateNetworkHashesPerSecond mgr w =
      some (.error (.underMinWindowSizeAllowed w.length 1000)) := by
  unfold estimateNetworkHashesPerSecond
  rw [if_pos h]

/-- C10 (implicit): for every window with fewer than 1000 members —
including the empty window — `estimate_network_hashes_per_second` returns
`UnderMinWindowSizeAllowed(window_length, 1000)`; the minimum-size check
precedes the empty-window check, so the `Ok(0)` empty-window branch can
never be taken. -/
theorem claim_C10 (mgr : DifficultyManager) (w : BlockWindowHeap)
    (h : w.length < 1000) :
    estimateNetworkHashesPerSecond mgr w =
      some (.error (.underMinWindowSizeAllowed w.length 1000)) :=
  estimate_under_min mgr w h

theorem claim_C10_witness :
    ([] : BlockWindowHeap).length < 1000 ∧
      estimateNetworkHashesPerSecond steadyMgr [] =
        some (.error (.underMinWindowSizeAllowed 0 1000)) :=
  ⟨by decide, claim_C10 steadyMgr [] (by decide)⟩

/-- C4 counterexample: on the empty window the function does **not** return
`Ok(0)`; it returns the under-minimum-window-size error, because the
minimum-size check runs first. -/
theorem claim_C4_cex :
    estimateNetworkHashesPerSecond stretchedMgr [] ≠ some (Except.ok 0) ∧
      estimateNetworkHashesPerSecond stretchedMgr [] =
        some (.error (.underMinWindowSizeAllowed 0 1000)) := by
  refine ⟨?_, rfl⟩
  intro h
  have heq : estimateNetworkHashesPerSecond stretchedMgr [] =
      some (.error (.underMinWindowSizeAllowed 0 1000)) := rfl
  rw [heq] at h
  exact Except.noConfusion (Option.some.inj h)

/-- C4 (amended): `estimate_network_hashes_per_second` returns the
under-minimum-window-size error whenever the window has fewer members than
the fixed minimum sample count — including the empty window, for which it
returns that error rather than `Ok(0)` (the `Ok(0)` empty-window branch is
dead code behind the size check). -/
theorem claim_C4 (mgr : DifficultyManager) (w : BlockWindowHeap)
    (h : w.length < 1000) :
    estimateNetworkHashesPerSecond mgr w =
        some (.error (.underMinWindowSizeAllowed w.length 1000)) ∧
      estimateNetworkHashesPerSecond mgr [] =
        some (.error (.underMinWindowSizeAllowed 0 1000)) :=
  ⟨estimate_under_min mgr w h, estimate_under_min mgr [] (by decide)⟩

theorem claim_C4_witness :
    ([⟨3, 3⟩] : BlockWindowHeap).length < 1000 ∧
      (estimateNetworkHashesPerSecond steadyMgr [⟨3, 3⟩] =
          some (.error (.underMinWindowSizeAllowed 1 1000)) ∧
        estimateNetworkHashesPerSecond steadyMgr [] =
          some (.error (.underMinWindowSizeAllowed 0 1000))) :=
  ⟨by decide, claim_C4 steadyMgr [⟨3, 3⟩] (by decide)⟩

/-- C9: `calculate_chain_path(x, x)` returns empty `added` and empty
`removed`, given a reachability oracle whose backward chain iterator from
`x` starts at `x` and whose `is_chain_ancestor_of` is reflexive at `x`. -/
theorem claim_C9 (reach : Reachability) (x : Nat) (rest : List Nat)
    (hchain : reach.chainFromTip x = x :: rest)
    (hrefl : reach.isChainAncestorOf x x = true) :
    calculateChainPath reach x x = ⟨[], []⟩ := by
  unfold calculateChainPath backwardChainList
  rw [hchain]
  unfold findSplitAux
  rw [if_pos hrefl]
  simp

theorem claim_C9_witness : calculateChainPath lineReach 4 4 = ⟨[], []⟩ :=
  claim_C9 lineReach 4 [3, 2, 1, 0] (by decide) (by decide)

/-- C8: when stored blue scores are strictly increasing along every
selected-parent step below a non-origin block `high`,
`lowest_chain_block_above_or_equal_to_blue_score(high, blue_score(high))`
returns `high` itself: the precondition holds with equality and the very
first selected-parent step already falls below the target. -/
theorem claim_C8 (mgr : TraversalManager) (fuel high : Nat)
    (hfuel : 1 ≤ fuel) (horigin : high ≠ originHash)
    (hinc : ∀ b, b ≠ mgr.genesisHash →
      (mgr.getCompactData (mgr.getCompactData b).selectedParent).blueScore <
        (mgr.getCompactData b).blueScore) :
    lowestChainBlockAboveOrEqualToBlueScore mgr fuel high
      (mgr.getCompactData high).blueScore = some high := by
  unfold lowestChainBlockAboveOrEqualToBlueScore
  rw [if_neg (lt_irrefl _)]
  obtain ⟨f, rfl⟩ : ∃ f, fuel = f + 1 := ⟨fuel - 1, by omega⟩
  unfold lowestChainAux
  by_cases hg : high = mgr.genesisHash
  · rw [if_pos hg]
  · rw [if_neg hg]
    simp only
    rw [if_neg horigin]
    rw [if_pos (hinc high hg)]

theorem claim_C8_witness :
    lowestChainBlockAboveOrEqualToBlueScore lineTraversalMgr 1 5 5 = some 5 :=
  claim_C8 lineTraversalMgr 1 5 (by decide) (by decide)
    (by intro b hb; simp [lineTraversalMgr] at hb ⊢; omega)

theorem anticoneAux_no_error_of_none (reach : Reachability) (rel : Relations)
    (block : Nat) :
    ∀ fuel queue visited ac tc e,
      anticoneAux reach rel block none fuel queue visited ac tc ≠
        some (.error e) := by
  intro fuel
  induction fuel with
  | zero =>
    intro queue visited ac tc e h
    cases queue with
    | nil => simp [anticoneAux] at h
    | cons c rest => simp [anticoneAux] at h
  | succ f ih =>
    intro queue visited ac tc e h
    cases queue with
    | nil => simp [anticoneAux] at h
    | cons c rest =>
      unfold anticoneAux at h
      simp only at h
      by_cases hv : c ∈ visited
      · rw [if_pos hv] at h
        exact ih rest visited ac tc e h
      · rw [if_neg hv] at h
        by_cases ha : reach.isDagAncestorOf c block = true
        · rw [if_pos ha] at h
          exact ih rest (c :: visited) ac tc e h
        · rw [if_neg ha] at h
          exact ih _ _ _ _ e h

theorem anticoneAux_error_payload (reach : Reachability) (rel : Relations)
    (block m : Nat) :
    ∀ fuel queue visited ac tc e, tc ≤ m →
      anticoneAux reach rel block (some m) fuel queue visited ac tc =
        some (.error e) →
      e = .reachedMaxTraversalAllowed (m + 1) m := by
  intro fuel
  induction fuel with
  | zero =>
    intro queue visited ac tc e _ h
    cases queue with
    | nil => simp [anticoneAux] at h
    | cons c rest => simp [anticoneAux] at h
  | succ f ih =>
    intro queue visited ac tc e htc h
    cases queue with
    | nil => simp [anticoneAux] at h
    | cons c rest =>
      unfold anticoneAux at h
      simp only at h
      by_cases hv : c ∈ visited
      · rw [if_pos hv] at h
        exact ih rest visited ac tc e htc h
      · rw [if_neg hv] at h
        by_cases ha : reach.isDagAncestorOf c block = true
        · rw [if_pos ha] at h
          exact ih rest (c :: visited) ac tc e htc h
        · rw [if_neg ha] at h
          by_cases hm : m < tc + 1
          · rw [if_pos hm] at h
            have : tc = m := by omega
            subst this
            simp at h
            exact h.symm
          · rw [if_neg hm] at h
            exact ih _ _ _ (tc + 1) e (by omega) h

/-- C3 (amended): the traversal counter counts only first-visit dequeues that
are not in `past(block)` (already-visited nodes and DAG ancestors of `block`
are skipped before the increment, so arbitrarily many such dequeues never
trip the bound); whenever the call fails it fails at the first counted node
beyond the bound, with the error carrying attempted = allowed + 1 and the
allowed count — and only when a bound was supplied. -/
theorem claim_C3 (reach : Reachability) (rel : Relations) (block : Nat)
    (tips : List Nat) (maxT : Option Nat) (fuel : Nat) (e : TraversalError)
    (herr : anticone reach rel block tips maxT fuel = some (.error e)) :
    ∃ m, maxT = some m ∧ e = .reachedMaxTraversalAllowed (m + 1) m := by
  cases maxT with
  | none => exact absurd herr (anticoneAux_no_error_of_none reach rel block fuel tips [] [] 0 e)
  | some m =>
    exact ⟨m, rfl,
      anticoneAux_error_payload reach rel block m fuel tips [] [] 0 e (Nat.zero_le m) herr⟩

theorem claim_C3_witness :
    ∃ m, (some 0 : Option Nat) = some m ∧
      TraversalError.reachedMaxTraversalAllowed 1 0 =
        .reachedMaxTraversalAllowed (m + 1) m :=
  claim_C3 pastTipReach emptyRel 0 [5] (some 0) 10
    (.reachedMaxTraversalAllowed 1 0) rfl

/-- C3 counterexample: with `max_traversal_allowed = 0`, a tip lying in
`past(block)` is dequeued yet the call succeeds — under the claim's
accounting ("every node dequeued increments the counter, and the call fails
as soon as the counter exceeds max") this very input would have to fail
with the traversal-limit error. -/
theorem claim_C3_cex :
    pastTipReach.isDagAncestorOf 1 0 = true ∧
      anticone pastTipReach emptyRel 0 [1] (some 0) 10 = some (Except.ok []) :=
  ⟨by decide, rfl⟩

theorem takeWhile_take_eq {α : Type} (p : α → Bool) (l : List α) :
    l.takeWhile p = l.take (l.takeWhile p).length := by
  induction l with
  | nil => simp
  | cons a t ih =>
    by_cases h : p a
    · simp only [List.takeWhile_cons, h, if_true, List.length_cons,
        List.take_succ_cons]
      rw [← ih]
    · simp [List.takeWhile_cons, h]

theorem head_drop_takeWhile {α : Type} (p : α → Bool) (l : List α) (b : α)
    (h : (l.drop (l.takeWhile p).length).head? = some b) : p b = false := by
  induction l with
  | nil => simp at h
  | cons a t ih =>
    by_cases hp : p a
    · simp only [List.takeWhile_cons, hp, if_true, List.length_cons,
        List.drop_succ_cons] at h
      exact ih h
    · simp only [List.takeWhile_cons, hp, if_false, List.length_nil,
        List.drop_zero, List.head?_cons] at h
      cases h
      simpa using hp

/-- C5: `calc_daa_score_and_non_daa_mergeset_blocks` returns as its non-DAA
set exactly the maximal prefix of the sequence "ascending mergeset without
the selected parent, then the selected parent with its own blue work" whose
elements are strictly below the window's minimum in `SortableBlock` order
(a maximal-blue-work sentinel standing in for the minimum of an empty
window), and a DAA score of the selected parent's DAA score plus the
mergeset size minus the size of that set. -/
theorem claim_C5 (mgr : DifficultyManager) (w : BlockWindowHeap)
    (gd : GhostdagData) (blueWorkOf : Nat → Option Nat) :
    ∃ k, k ≤ (daaSeq gd blueWorkOf).length ∧
      (calcDaaScoreAndNonDaaMergesetBlocks mgr w gd blueWorkOf).2 =
        (((daaSeq gd blueWorkOf).take k).map (·.hash)).toFinset ∧
      (∀ b ∈ (daaSeq gd blueWorkOf).take k,
        sbLt b (windowLowestBlock w) = true) ∧
      (∀ b, ((daaSeq gd blueWorkOf).drop k).head? = some b →
        sbLt b (windowLowestBlock w) = false) ∧
      (calcDaaScoreAndNonDaaMergesetBlocks mgr w gd blueWorkOf).1 =
        mgr.headersStore.getDaaScore gd.selectedParent +
          (mergesetSize gd -
            (calcDaaScoreAndNonDaaMergesetBlocks mgr w gd blueWorkOf).2.card) := by
  refine ⟨((daaSeq gd blueWorkOf).takeWhile
    (fun b => sbLt b (windowLowestBlock w))).length, ?_, ?_, ?_, ?_, ?_⟩
  · exact (List.takeWhile_prefix _).sublist.length_le
  · show (((daaSeq gd blueWorkOf).takeWhile _).map (·.hash)).toFinset = _
    rw [← takeWhile_take_eq]
  · intro b hb
    rw [← takeWhile_take_eq] at hb
    exact List.mem_takeWhile_imp (p := fun x => sbLt x (windowLowestBlock w)) hb
  · intro b hb
    exact head_drop_takeWhile _ _ b hb
  · rfl

theorem tryPush_sizeBound (h : BoundedSizeBlockHeap) (a b : Nat) :
    (tryPush h a b).2.sizeBound = h.sizeBound := by
  unfold tryPush
  dsimp only
  split
  · split
    · split <;> rfl
    · rfl
  · rfl

/-- One `try_push` into a heap at its bound keeps the bound and keeps the
"k largest of everything seen" invariant. -/
theorem tryPush_step (bound : Nat) (H : BlockWindowHeap) (c : SortableBlock)
    (seen : Multiset SortableBlock) (hb : 1 ≤ bound) (hlen : H.length = bound)
    (htop : IsTopK bound seen ↑H) :
    (tryPush ⟨bound, H⟩ c.hash c.blueWork).2.binaryHeap.length = bound ∧
      IsTopK bound (c ::ₘ seen) ↑((tryPush ⟨bound, H⟩ c.hash c.blueWork).2.binaryHeap) := by
  obtain ⟨hsub, hcard, hdom⟩ := htop
  cases hpeek : heapPeekMin H with
  | none =>
    have : H = [] := (heapPeekMin_eq_none_iff H).mp hpeek
    subst this
    simp at hlen
    omega
  | some m =>
    obtain ⟨hm_mem, hm_low⟩ := heapPeekMin_spec H m hpeek
    have hmk : (⟨c.hash, c.blueWork⟩ : SortableBlock) = c := rfl
    unfold tryPush
    simp only [hlen, if_true, hpeek, hmk]
    by_cases hcm : sbLt c m = true
    · rw [if_pos hcm]
      dsimp only
      refine ⟨hlen, ?_, ?_, ?_⟩
      · intro a
        rw [Multiset.count_cons]
        exact le_trans (hsub a) (by omega)
      · exact hcard
      · intro x hx y hy
        by_cases hyc : y = c
        · subst hyc
          have hmx : sbLe m x = true := hm_low x (by simpa using hx)
          exact sbLe_of_lt (sbLt_of_lt_of_le hcm hmx)
        · rw [Multiset.count_cons, if_neg hyc] at hy
          exact hdom x hx y (by omega)
    · rw [if_neg hcm]
      dsimp only
      have hmc : sbLe m c = true :=
        sbLe_of_not_lt (by simpa using hcm)
      have hKlen : (c :: H.erase m).length = bound := by
        rw [List.length_cons, List.length_erase_of_mem hm_mem, hlen]
        omega
      refine ⟨hKlen, ?_, ?_, ?_⟩
      · intro a
        rw [show ((c :: H.erase m : List SortableBlock) : Multiset SortableBlock) =
          c ::ₘ ↑(H.erase m) from rfl]
        rw [Multiset.count_cons, Multiset.count_cons]
        have : (↑(H.erase m) : Multiset SortableBlock).count a ≤
            (↑H : Multiset SortableBlock).count a := by
          rw [Multiset.coe_count, Multiset.coe_count, List.count_erase]
          omega
        have := hsub a
        omega
      · rw [show ((c :: H.erase m : List SortableBlock) : Multiset SortableBlock) =
          c ::ₘ ↑(H.erase m) from rfl]
        rw [Multiset.card_cons, Multiset.coe_card, List.length_erase_of_mem hm_mem,
          hlen]
        omega
      · intro x hx y hy
        rw [show ((c :: H.erase m : List SortableBlock) : Multiset SortableBlock) =
          c ::ₘ ↑(H.erase m) from rfl] at hx hy
        have hym : sbLe y m = true := by
          by_cases hym' : y = m
          · subst hym'; exact sbLe_refl y
          · by_cases hyc : y = c
            · subst hyc
              rw [Multiset.count_cons, if_pos rfl, Multiset.count_cons,
                if_pos rfl] at hy
              have hcnt : (↑(H.erase m) : Multiset SortableBlock).count y =
                  (↑H : Multiset SortableBlock).count y := by
                rw [Multiset.coe_count, Multiset.coe_count, List.count_erase]
                have : ¬ (m == y) = true := by simpa using fun h => hym' h.symm
                simp [this]
              rw [hcnt] at hy
              exact hdom m (by simpa using hm_mem) y (by omega)
            · rw [Multiset.count_cons, if_neg hyc, Multiset.count_cons,
                if_neg hyc] at hy
              have hcnt : (↑(H.erase m) : Multiset SortableBlock).count y =
                  (↑H : Multiset SortableBlock).count y := by
                rw [Multiset.coe_count, Multiset.coe_count, List.count_erase]
                have : ¬ (m == y) = true := by simpa using fun h => hym' h.symm
                simp [this]
              rw [hcnt] at hy
              exact hdom m (by simpa using hm_mem) y (by omega)
        rcases Multiset.mem_cons.mp hx with hxc | hxe
        · subst hxc
          exact sbLe_trans hym hmc
        · have hxH : x ∈ H := List.mem_of_mem_erase (by simpa using hxe)
          exact sbLe_trans hym (hm_low x hxH)

/-- Any `try_push` sequence into a heap that starts at its bound preserves
the bound and the "k largest seen" invariant. -/
theorem runPushes_topk (bound : Nat) (hb : 1 ≤ bound) :
    ∀ (cands : List SortableBlock) (H : BlockWindowHeap)
      (seen : Multiset SortableBlock), H.length = bound → IsTopK bound seen ↑H →
      (runPushes ⟨bound, H⟩ cands).binaryHeap.length = bound ∧
        IsTopK bound (seen + ↑cands) ↑((runPushes ⟨bound, H⟩ cands).binaryHeap) := by
  intro cands
  induction cands with
  | nil =>
    intro H seen hlen htop
    constructor
    · simpa [runPushes] using hlen
    · simpa [runPushes] using htop
  | cons c cs ih =>
    intro H seen hlen htop
    have hstep := tryPush_step bound H c seen hb hlen htop
    have heta : (tryPush ⟨bound, H⟩ c.hash c.blueWork).2 =
        ⟨bound, (tryPush ⟨bound, H⟩ c.hash c.blueWork).2.binaryHeap⟩ := by
      have := tryPush_sizeBound ⟨bound, H⟩ c.hash c.blueWork
      cases hh : (tryPush ⟨bound, H⟩ c.hash c.blueWork).2
      simp_all
    have hrun : runPushes ⟨bound, H⟩ (c :: cs) =
        runPushes ⟨bound, (tryPush ⟨bound, H⟩ c.hash c.blueWork).2.binaryHeap⟩ cs := by
      rw [runPushes, List.foldl_cons, ← heta]
      rfl
    have hih := ih (tryPush ⟨bound, H⟩ c.hash c.blueWork).2.binaryHeap
      (c ::ₘ seen) hstep.1 hstep.2
    rw [hrun]
    refine ⟨hih.1, ?_⟩
    have hms : seen + ↑(c :: cs) = (c ::ₘ seen) + ↑cs := by
      rw [show ((c :: cs : List SortableBlock) : Multiset SortableBlock) =
        c ::ₘ ↑cs from rfl]
      rw [← Multiset.singleton_add, ← Multiset.singleton_add]
      rw [← add_assoc, add_comm seen {c}]
    rw [hms]
    exact hih.2

/-- C1 (amended): for a `BoundedSizeBlockHeap` at its (positive) size bound,
`try_push` rejects the candidate exactly when it is strictly smaller, in
`SortableBlock` order, than the minimum currently held (the root of the
`Reverse` heap); otherwise it evicts that minimum and admits the candidate;
consequently after any sequence of `try_push` calls the heap holds exactly
the k **largest** `SortableBlock`s seen (k = size bound). -/
theorem claim_C1 (bound : Nat) (init : BlockWindowHeap)
    (cands : List SortableBlock) (hb : 1 ≤ bound) (hlen : init.length = bound) :
    (∀ c : SortableBlock,
      ((tryPush ⟨bound, init⟩ c.hash c.blueWork).1 = false ↔
        ∃ m, heapPeekMin init = some m ∧ sbLt c m = true)) ∧
      IsTopK bound (↑init + ↑cands) ↑((runPushes ⟨bound, init⟩ cands).binaryHeap) := by
  constructor
  · intro c
    cases hpeek : heapPeekMin init with
    | none =>
      have : init = [] := (heapPeekMin_eq_none_iff init).mp hpeek
      subst this
      simp at hlen
      omega
    | some m =>
      have hmk : (⟨c.hash, c.blueWork⟩ : SortableBlock) = c := rfl
      unfold tryPush
      simp only [hlen, if_true, hpeek, hmk]
      by_cases hcm : sbLt c m = true
      · rw [if_pos hcm]
        exact ⟨fun _ => ⟨m, rfl, hcm⟩, fun _ => rfl⟩
      · rw [if_neg hcm]
        constructor
        · intro h; cases h
        · rintro ⟨m', hm', hlt⟩
          cases hm'
          exact absurd hlt hcm
  · exact (runPushes_topk bound hb cands init ↑init hlen
      ⟨fun a => le_refl _, by simp [hlen], fun x hx y hy => absurd hy (lt_irrefl _)⟩).2

theorem claim_C1_witness :
    (∀ c : SortableBlock,
      ((tryPush ⟨1, [⟨1, 1⟩]⟩ c.hash c.blueWork).1 = false ↔
        ∃ m, heapPeekMin [⟨1, 1⟩] = some m ∧ sbLt c m = true)) ∧
      IsTopK 1 (↑[(⟨1, 1⟩ : SortableBlock)] + ↑[(⟨2, 2⟩ : SortableBlock), ⟨3, 1⟩])
        ↑((runPushes ⟨1, [⟨1, 1⟩]⟩ [⟨2, 2⟩, ⟨3, 1⟩]).binaryHeap) :=
  claim_C1 1 [⟨1, 1⟩] [⟨2, 2⟩, ⟨3, 1⟩] (by decide) (by decide)

/-- C1 counterexample: a heap of bound 1 at its bound, holding the block of
blue work 1.  The candidate (blue work 2) is **not** smaller than the
maximum held under the `SortableBlock` order, so by the claim `try_push`
must reject it and keep the smallest block seen — but the code admits it
(returns `true`), evicts the held block, and retains the larger one. -/
theorem claim_C1_cex :
    sbLt ⟨2, 2⟩ ⟨1, 1⟩ = false ∧
      (∀ x ∈ ([⟨1, 1⟩] : BlockWindowHeap), sbLe x ⟨1, 1⟩ = true) ∧
      tryPush ⟨1, [⟨1, 1⟩]⟩ 2 2 = (true, ⟨1, [⟨2, 2⟩]⟩) := by
  refine ⟨by decide, by decide, by decide⟩

theorem dbLt_iff (a b : DifficultyBlock) :
    dbLt a b = true ↔ a.timestamp < b.timestamp ∨
      (a.timestamp = b.timestamp ∧ sbLt a.sortableBlock b.sortableBlock = true) := by
  simp [dbLt]

theorem dbLe_iff (a b : DifficultyBlock) :
    dbLe a b = true ↔ a.timestamp < b.timestamp ∨
      (a.timestamp = b.timestamp ∧ sbLe a.sortableBlock b.sortableBlock = true) := by
  simp [dbLe]

theorem dbLe_refl (a : DifficultyBlock) : dbLe a a = true := by
  rw [dbLe_iff]
  exact Or.inr ⟨rfl, sbLe_refl _⟩

theorem dbLe_of_lt {a b : DifficultyBlock} (h : dbLt a b = true) :
    dbLe a b = true := by
  rw [dbLt_iff] at h
  rw [dbLe_iff]
  rcases h with h | ⟨he, hs⟩
  · exact Or.inl h
  · exact Or.inr ⟨he, sbLe_of_lt hs⟩

theorem dbLe_of_not_lt {a b : DifficultyBlock} (h : dbLt a b = false) :
    dbLe b a = true := by
  rw [← Bool.not_eq_true, dbLt_iff] at h
  push_neg at h
  rw [dbLe_iff]
  rcases Nat.lt_trichotomy b.timestamp a.timestamp with ht | ht | ht
  · exact Or.inl ht
  · refine Or.inr ⟨ht, ?_⟩
    have := h.2 ht.symm
    exact sbLe_of_not_lt (by simpa using this)
  · exact absurd ht (by omega)

theorem dbLe_trans {a b c : DifficultyBlock} (h1 : dbLe a b = true)
    (h2 : dbLe b c = true) : dbLe a c = true := by
  rw [dbLe_iff] at *
  rcases h1 with h1 | ⟨he1, hs1⟩ <;> rcases h2 with h2 | ⟨he2, hs2⟩
  · exact Or.inl (by omega)
  · exact Or.inl (by omega)
  · exact Or.inl (by omega)
  · exact Or.inr ⟨by omega, sbLe_trans hs1 hs2⟩

theorem dbLe_ts_antisymm {a b : DifficultyBlock} (h1 : dbLe a b = true)
    (h2 : dbLe b a = true) :
    a.timestamp = b.timestamp ∧ a.sortableBlock = b.sortableBlock := by
  rw [dbLe_iff] at *
  have hts : a.timestamp = b.timestamp := by omega
  refine ⟨hts, ?_⟩
  rcases h1 with h1 | ⟨_, hs1⟩
  · omega
  · rcases h2 with h2 | ⟨_, hs2⟩
    · omega
    · exact sbLe_antisymm hs1 hs2

theorem foldMinDb_spec (x : DifficultyBlock) (xs : List DifficultyBlock) :
    foldMinDb x xs ∈ x :: xs ∧ ∀ y ∈ x :: xs, dbLe (foldMinDb x xs) y = true := by
  induction xs generalizing x with
  | nil => exact ⟨by simp [foldMinDb], by simp [foldMinDb, dbLe_refl]⟩
  | cons z zs ih =>
    have hfold : foldMinDb x (z :: zs) = foldMinDb (if dbLt z x then z else x) zs := rfl
    obtain ⟨hmem, hbound⟩ := ih (if dbLt z x then z else x)
    have hacc_x : dbLe (if dbLt z x then z else x) x = true := by
      by_cases h : dbLt z x = true
      · rw [if_pos h]; exact dbLe_of_lt h
      · rw [if_neg h]; exact dbLe_refl x
    have hacc_z : dbLe (if dbLt z x then z else x) z = true := by
      by_cases h : dbLt z x = true
      · rw [if_pos h]; exact dbLe_refl z
      · rw [if_neg h]; exact dbLe_of_not_lt (by simpa using h)
    constructor
    · rw [hfold]
      rcases List.mem_cons.mp hmem with h | h
      · rw [h]
        by_cases hz : dbLt z x = true
        · rw [if_pos hz]; exact List.mem_cons_of_mem _ (List.mem_cons_self _ _)
        · rw [if_neg hz]; exact List.mem_cons_self _ _
      · exact List.mem_cons_of_mem _ (List.mem_cons_of_mem _ h)
    · intro y hy
      rw [hfold]
      have hle_acc := hbound _ (List.mem_cons_self _ _)
      rcases List.mem_cons.mp hy with rfl | hy'
      · exact dbLe_trans hle_acc hacc_x
      · rcases List.mem_cons.mp hy' with rfl | hy''
        · exact dbLe_trans hle_acc hacc_z
        · exact hbound y (List.mem_cons_of_mem _ hy'')

theorem foldMaxDb_spec (x : DifficultyBlock) (xs : List DifficultyBlock) :
    foldMaxDb x xs ∈ x :: xs ∧ ∀ y ∈ x :: xs, dbLe y (foldMaxDb x xs) = true := by
  induction xs generalizing x with
  | nil => exact ⟨by simp [foldMaxDb], by simp [foldMaxDb, dbLe_refl]⟩
  | cons z zs ih =>
    have hfold : foldMaxDb x (z :: zs) = foldMaxDb (if dbLe x z then z else x) zs := rfl
    obtain ⟨hmem, hbound⟩ := ih (if dbLe x z then z else x)
    have hacc_x : dbLe x (if dbLe x z then z else x) = true := by
      by_cases h : dbLe x z = true
      · rw [if_pos h]; exact h
      · rw [if_neg h]; exact dbLe_refl x
    have hacc_z : dbLe z (if dbLe x z then z else x) = true := by
      by_cases h : dbLe x z = true
      · rw [if_pos h]; exact dbLe_refl z
      · rw [if_neg h]
        have : dbLt x z = false := by
          rcases hlt : dbLt x z
          · rfl
          · exact absurd (dbLe_of_lt hlt) (by simpa using h)
        exact dbLe_of_not_lt this
    constructor
    · rw [hfold]
      rcases List.mem_cons.mp hmem with h | h
      · rw [h]
        by_cases hz : dbLe x z = true
        · rw [if_pos hz]; exact List.mem_cons_of_mem _ (List.mem_cons_self _ _)
        · rw [if_neg hz]; exact List.mem_cons_self _ _
      · exact List.mem_cons_of_mem _ (List.mem_cons_of_mem _ h)
    · intro y hy
      rw [hfold]
      have hle_acc := hbound _ (List.mem_cons_self _ _)
      rcases List.mem_cons.mp hy with rfl | hy'
      · exact dbLe_trans hacc_x hle_acc
      · rcases List.mem_cons.mp hy' with rfl | hy''
        · exact dbLe_trans hacc_z hle_acc
        · exact hbound y (List.mem_cons_of_mem _ hy'')

theorem posMinmaxAux_fst_val :
    ∀ (xs : List DifficultyBlock) (i : Nat) (mn mx : Nat × DifficultyBlock),
      ((posMinmaxAux xs i mn mx).1).2 = foldMinDb mn.2 xs := by
  intro xs
  induction xs with
  | nil => intro i mn mx; rfl
  | cons x xs ih =>
    intro i mn mx
    unfold posMinmaxAux
    rw [ih]
    show foldMinDb (if dbLt x mn.2 = true then (i, x) else mn).2 xs =
      foldMinDb (if dbLt x mn.2 = true then x else mn.2) xs
    by_cases h : dbLt x mn.2 = true
    · rw [if_pos h, if_pos h]
    · rw [if_neg h, if_neg h]

theorem posMinmaxAux_snd_val :
    ∀ (xs : List DifficultyBlock) (i : Nat) (mn mx : Nat × DifficultyBlock),
      ((posMinmaxAux xs i mn mx).2).2 = foldMaxDb mx.2 xs := by
  intro xs
  induction xs with
  | nil => intro i mn mx; rfl
  | cons x xs ih =>
    intro i mn mx
    unfold posMinmaxAux
    rw [ih]
    show foldMaxDb (if dbLe mx.2 x = true then (i, x) else mx).2 xs =
      foldMaxDb (if dbLe mx.2 x = true then x else mx.2) xs
    by_cases h : dbLe mx.2 x = true
    · rw [if_pos h, if_pos h]
    · rw [if_neg h, if_neg h]

theorem posMinmaxAux_points (l : List DifficultyBlock) :
    ∀ (xs : List DifficultyBlock) (i : Nat) (mn mx : Nat × DifficultyBlock),
      mn.1 < l.length → l.getD mn.1 dbDefault = mn.2 →
      mx.1 < l.length → l.getD mx.1 dbDefault = mx.2 →
      (∀ k, k < xs.length →
        i + k < l.length ∧ l.getD (i + k) dbDefault = xs.getD k dbDefault) →
      (posMinmaxAux xs i mn mx).1.1 < l.length ∧
        l.getD (posMinmaxAux xs i mn mx).1.1 dbDefault =
          (posMinmaxAux xs i mn mx).1.2 ∧
        (posMinmaxAux xs i mn mx).2.1 < l.length ∧
        l.getD (posMinmaxAux xs i mn mx).2.1 dbDefault =
          (posMinmaxAux xs i mn mx).2.2 := by
  intro xs
  induction xs with
  | nil =>
    intro i mn mx h1 h2 h3 h4 _
    exact ⟨h1, h2, h3, h4⟩
  | cons x xs ih =>
    intro i mn mx h1 h2 h3 h4 hseq
    have hx := hseq 0 (by simp)
    simp only [Nat.add_zero, List.getD_cons_zero] at hx
    unfold posMinmaxAux
    apply ih
    · by_cases h : dbLt x mn.2 = true
      · rw [if_pos h]; exact hx.1
      · rw [if_neg h]; exact h1
    · by_cases h : dbLt x mn.2 = true
      · rw [if_pos h]; exact hx.2
      · rw [if_neg h]; exact h2
    · by_cases h : dbLe mx.2 x = true
      · rw [if_pos h]; exact hx.1
      · rw [if_neg h]; exact h3
    · by_cases h : dbLe mx.2 x = true
      · rw [if_pos h]; exact hx.2
      · rw [if_neg h]; exact h4
    · intro k hk
      have := hseq (k + 1) (by simpa using Nat.succ_lt_succ hk)
      constructor
      · have := this.1; omega
      · have h' := this.2
        rw [show i + (k + 1) = i + 1 + k by omega] at h'
        simpa using h'

theorem positionMinmax_cons (x : DifficultyBlock) (xs : List DifficultyBlock) :
    ∃ i j, positionMinmax (x :: xs) = some (i, j) ∧
      i < (x :: xs).length ∧ j < (x :: xs).length ∧
      (x :: xs).getD i dbDefault = foldMinDb x xs ∧
      (x :: xs).getD j dbDefault = foldMaxDb x xs := by
  refine ⟨(posMinmaxAux xs 1 (0, x) (0, x)).1.1,
    (posMinmaxAux xs 1 (0, x) (0, x)).2.1, rfl, ?_⟩
  have hpts := posMinmaxAux_points (x :: xs) xs 1 (0, x) (0, x)
    (by simp) (by simp) (by simp) (by simp)
    (fun k hk => ⟨by simp; omega, by rw [show 1 + k = k + 1 by omega]; simp⟩)
  have h1 := posMinmaxAux_fst_val xs 1 (0, x) (0, x)
  have h2 := posMinmaxAux_snd_val xs 1 (0, x) (0, x)
  exact ⟨hpts.1, hpts.2.2.1, by rw [hpts.2.1, h1], by rw [hpts.2.2.2, h2]⟩

theorem swapRemove_perm {α : Type} (d : α) :
    ∀ (l : List α) (i : Nat), i < l.length →
      (l.getD i d :: swapRemove l i).Perm l := by
  intro l
  induction l with
  | nil => intro i h; simp at h
  | cons a t ih =>
    intro i h
    cases t with
    | nil =>
      have hi : i = 0 := by simpa using h
      subst hi
      simp [swapRemove]
    | cons b t' =>
      have htne : (b :: t' : List α) ≠ [] := by simp
      have hlast : (a :: b :: t').getLast? = (b :: t').getLast? := by
        rw [List.getLast?_cons_cons]
      cases i with
      | zero =>
        obtain ⟨z, hz⟩ : ∃ z, (b :: t').getLast? = some z :=
          ⟨(b :: t').getLast htne, List.getLast?_eq_getLast _ htne⟩
        have hz' : (b :: t').getLast htne = z := by
          have := List.getLast?_eq_getLast (b :: t') htne
          rw [this] at hz
          exact Option.some.inj hz
        simp only [swapRemove, hlast, hz, List.getD_cons_zero, List.set_cons_zero]
        have hdz : (z :: b :: t').dropLast = z :: (b :: t').dropLast := by
          rw [List.dropLast_cons₂]
        rw [hdz]
        refine List.Perm.cons a ?_
        have hsplit : (b :: t').dropLast ++ [z] = b :: t' := by
          rw [← hz']
          exact List.dropLast_append_getLast htne
        have hp1 : (z :: (b :: t').dropLast).Perm ((b :: t').dropLast ++ [z]) :=
          (List.perm_append_singleton _ _).symm
        rwa [hsplit] at hp1
      | succ k =>
        have hk : k < (b :: t').length := by simpa using h
        obtain ⟨z, hz⟩ : ∃ z, (b :: t').getLast? = some z :=
          ⟨(b :: t').getLast htne, List.getLast?_eq_getLast _ htne⟩
        have hrec := ih k hk
        have hsw : swapRemove (a :: b :: t') (k + 1) =
            a :: swapRemove (b :: t') k := by
          simp only [swapRemove, hlast, hz, List.set_cons_succ]
          obtain ⟨u, us, hu⟩ : ∃ u us, (b :: t').set k z = u :: us := by
            cases k with
            | zero => exact ⟨z, t', by simp⟩
            | succ k' => exact ⟨b, t'.set k' z, by simp⟩
          rw [hu, List.dropLast_cons₂]
        rw [hsw, List.getD_cons_succ]
        exact (List.Perm.swap a _ _).trans (List.Perm.cons a hrec)

theorem getDifficultyBlocks_mem (mgr : DifficultyManager) (w : BlockWindowHeap)
    (b : DifficultyBlock) (hb : b ∈ getDifficultyBlocks mgr w) :
    b = mkDifficultyBlock mgr.headersStore b.sortableBlock := by
  simp only [getDifficultyBlocks, List.mem_map] at hb
  obtain ⟨sb, _, rfl⟩ := hb
  rfl

theorem db_eq_of_le_le (store : HeaderStore) (a b : DifficultyBlock)
    (ha : a = mkDifficultyBlock store a.sortableBlock)
    (hb : b = mkDifficultyBlock store b.sortableBlock)
    (h1 : dbLe a b = true) (h2 : dbLe b a = true) : a = b := by
  obtain ⟨_, hsb⟩ := dbLe_ts_antisymm h1 h2
  rw [ha, hb, hsb]

/-- C6: `calculate_difficulty_bits` is invariant under permutation of the
window's iteration order — windows holding the same multiset of blocks give
the same compact bits, because the removed minimum member is determined by
the total `DifficultyBlock` order (and the header store determines each
materialized block from its `SortableBlock`), while the remaining sum,
length, and timestamp extrema are order-insensitive. -/
theorem claim_C6 (mgr : DifficultyManager) (w1 w2 : BlockWindowHeap)
    (hp : w1.Perm w2) :
    calculateDifficultyBits mgr w1 = calculateDifficultyBits mgr w2 := by
  have hpl : (getDifficultyBlocks mgr w1).Perm (getDifficultyBlocks mgr w2) :=
    hp.map _
  have hlen := hpl.length_eq
  unfold calculateDifficultyBits
  by_cases hsz :
    (getDifficultyBlocks mgr w1).length < mgr.difficultyAdjustmentWindowSize
  · rw [if_pos hsz, if_pos (by rw [← hlen]; exact hsz)]
  · rw [if_neg hsz, if_neg (by rw [← hlen]; exact hsz)]
    have hdet1 := getDifficultyBlocks_mem mgr w1
    cases hl1 : getDifficultyBlocks mgr w1 with
    | nil =>
      have hl2 : getDifficultyBlocks mgr w2 = [] := by
        rw [hl1] at hpl
        exact hpl.nil_eq.symm
      rw [hl2]
    | cons x xs =>
      cases hl2 : getDifficultyBlocks mgr w2 with
      | nil =>
        rw [hl1, hl2] at hpl
        exact absurd hpl.length_eq (by simp)
      | cons y ys =>
        rw [hl1, hl2] at hpl
        rw [hl1] at hdet1
        obtain ⟨i1, j1, hpm1, hi1, hj1, hgi1, hgj1⟩ := positionMinmax_cons x xs
        obtain ⟨i2, j2, hpm2, hi2, hj2, hgi2, hgj2⟩ := positionMinmax_cons y ys
        rw [hpm1, hpm2]
        dsimp only
        have hminv : foldMinDb x xs = foldMinDb y ys := by
          obtain ⟨hm1, hb1⟩ := foldMinDb_spec x xs
          obtain ⟨hm2, hb2⟩ := foldMinDb_spec y ys
          exact db_eq_of_le_le mgr.headersStore _ _
            (hdet1 _ hm1) (hdet1 _ (hpl.mem_iff.mpr hm2))
            (hb1 _ (hpl.mem_iff.mpr hm2)) (hb2 _ (hpl.mem_iff.mp hm1))
        have hmaxts : (foldMaxDb x xs).timestamp = (foldMaxDb y ys).timestamp := by
          obtain ⟨hm1, hb1⟩ := foldMaxDb_spec x xs
          obtain ⟨hm2, hb2⟩ := foldMaxDb_spec y ys
          have h1 := hb1 _ (hpl.mem_iff.mpr hm2)
          have h2 := hb2 _ (hpl.mem_iff.mp hm1)
          exact (dbLe_ts_antisymm h2 h1).1
        have hr1 : (foldMinDb x xs :: swapRemove (x :: xs) i1).Perm (x :: xs) := by
          have := swapRemove_perm dbDefault (x :: xs) i1 hi1
          rwa [hgi1] at this
        have hr2 : (foldMinDb x xs :: swapRemove (y :: ys) i2).Perm (y :: ys) := by
          have := swapRemove_perm dbDefault (y :: ys) i2 hi2
          rw [hgi2] at this
          rwa [hminv]
        have hrest : (swapRemove (x :: xs) i1).Perm (swapRemove (y :: ys) i2) :=
          (hr1.trans (hpl.trans hr2.symm)).cons_inv
        have hrlen := hrest.length_eq
        have hsum : ((swapRemove (x :: xs) i1).map
              (fun b => uint256FromCompactTargetBits b.bits)).sum =
            ((swapRemove (y :: ys) i2).map
              (fun b => uint256FromCompactTargetBits b.bits)).sum :=
          (hrest.map _).sum_eq
        rw [hgi1, hgj1, hgi2, hgj2, hminv, hmaxts, hrlen, hsum]

theorem claim_C6_witness :
    calculateDifficultyBits steadyMgr [⟨1, 1⟩, ⟨2, 2⟩, ⟨3, 3⟩] =
      calculateDifficultyBits steadyMgr [⟨3, 3⟩, ⟨1, 1⟩, ⟨2, 2⟩] :=
  claim_C6 steadyMgr [⟨1, 1⟩, ⟨2, 2⟩, ⟨3, 3⟩] [⟨3, 3⟩, ⟨1, 1⟩, ⟨2, 2⟩]
    (by decide)

theorem dbLe_ts_le {a b : DifficultyBlock} (h : dbLe a b = true) :
    a.timestamp ≤ b.timestamp := by
  rw [dbLe_iff] at h
  rcases h with h | ⟨h, _⟩ <;> omega

theorem uint256FromCompactTargetBits_lt (bits : Nat) :
    uint256FromCompactTargetBits bits < 2 ^ 256 := by
  unfold uint256FromCompactTargetBits
  dsimp only
  by_cases h : bits / 2 ^ 24 ≤ 3
  · rw [if_pos h]
    have h1 : bits % 2 ^ 24 < 2 ^ 24 := Nat.mod_lt _ (by norm_num)
    have h2 : bits % 2 ^ 24 / 2 ^ (8 * (3 - bits / 2 ^ 24)) ≤ bits % 2 ^ 24 :=
      Nat.div_le_self _ _
    have h3 : (2 : Nat) ^ 24 < 2 ^ 256 := by norm_num
    omega
  · rw [if_neg h]
    exact Nat.mod_lt _ (by positivity)

/-- C2 counterexample: ten window members whose compact bits all encode the
same target and whose timestamps span exactly 10000 ms, with
`target_time_per_block = 1000` and a satisfied window size of 10 — the
claim requires the output to equal the common input bits `0x1d00ffff =
486604799`, but the code returns `486612080`: with one minimum-timestamp
member removed the remaining count is 9, so a 10000 ms span multiplies the
average target by 10000/(1000·9) ≠ 1. -/
theorem claim_C2_cex :
    stretchedMgr.difficultyAdjustmentWindowSize = 10 ∧
      stretchedMgr.targetTimePerBlock = 1000 ∧
      (getDifficultyBlocks stretchedMgr steadyWindow).map (·.bits) =
        List.replicate 10 0x1d00ffff ∧
      (getDifficultyBlocks stretchedMgr steadyWindow).map (·.timestamp) =
        [0, 1000, 2000, 3000, 4000, 5000, 6000, 7000, 8000, 10000] ∧
      calculateDifficultyBits stretchedMgr steadyWindow = some 486612080 ∧
      (486612080 : Nat) ≠ 0x1d00ffff := by
  refine ⟨rfl, rfl, by decide, by decide, rfl, by decide⟩

/-- C2 (amended): steady-state difficulty invariance holds for a window of
10 blocks of identical (canonically encoded) compact bits whose timestamps
span `max_ts - min_ts = 9000` ms — the expected span of 10 blocks at
`target_time_per_block = 1000` ms, since removing the minimum-timestamp
member leaves 9 blocks and the window's span covers 9 inter-block gaps —
with the configured `difficulty_adjustment_window_size` satisfied (≤ 10):
`calculate_difficulty_bits` then returns the common input bits. -/
theorem claim_C2 (mgr : DifficultyManager) (w : BlockWindowHeap)
    (B mts Mts : Nat)
    (hws : mgr.difficultyAdjustmentWindowSize ≤ 10)
    (htpb : mgr.targetTimePerBlock = 1000)
    (hlen : (getDifficultyBlocks mgr w).length = 10)
    (hbits : ∀ b ∈ getDifficultyBlocks mgr w, b.bits = B)
    (hround : compactTargetBits (uint256FromCompactTargetBits B) = B)
    (hmts_mem : mts ∈ (getDifficultyBlocks mgr w).map (·.timestamp))
    (hmts_le : ∀ t ∈ (getDifficultyBlocks mgr w).map (·.timestamp), mts ≤ t)
    (hMts_mem : Mts ∈ (getDifficultyBlocks mgr w).map (·.timestamp))
    (hMts_ge : ∀ t ∈ (getDifficultyBlocks mgr w).map (·.timestamp), t ≤ Mts)
    (hspan : Mts - mts = 9000) :
    calculateDifficultyBits mgr w = some B := by
  unfold calculateDifficultyBits
  rw [if_neg (by omega)]
  cases hl : getDifficultyBlocks mgr w with
  | nil => rw [hl] at hlen; simp at hlen
  | cons x xs =>
    rw [hl] at hlen hbits hmts_mem hmts_le hMts_mem hMts_ge
    obtain ⟨i, j, hpm, hi, hj, hgi, hgj⟩ := positionMinmax_cons x xs
    rw [hpm]
    dsimp only
    obtain ⟨hmin_mem, hmin_low⟩ := foldMinDb_spec x xs
    obtain ⟨hmax_mem, hmax_high⟩ := foldMaxDb_spec x xs
    have hmin_ts : (foldMinDb x xs).timestamp = mts := by
      obtain ⟨bm, hbm, hbm_ts⟩ := List.mem_map.mp hmts_mem
      have h1 : (foldMinDb x xs).timestamp ≤ mts :=
        hbm_ts ▸ dbLe_ts_le (hmin_low bm hbm)
      have h2 : mts ≤ (foldMinDb x xs).timestamp :=
        hmts_le _ (List.mem_map_of_mem _ hmin_mem)
      omega
    have hmax_ts : (foldMaxDb x xs).timestamp = Mts := by
      obtain ⟨bm, hbm, hbm_ts⟩ := List.mem_map.mp hMts_mem
      have h1 : Mts ≤ (foldMaxDb x xs).timestamp :=
        hbm_ts ▸ dbLe_ts_le (hmax_high bm hbm)
      have h2 : (foldMaxDb x xs).timestamp ≤ Mts :=
        hMts_ge _ (List.mem_map_of_mem _ hmax_mem)
      omega
    have hperm0 : (foldMinDb x xs :: swapRemove (x :: xs) i).Perm (x :: xs) := by
      have := swapRemove_perm dbDefault (x :: xs) i hi
      rwa [hgi] at this
    have hrlen : (swapRemove (x :: xs) i).length = 9 := by
      have h0 := hperm0.length_eq
      simp only [List.length_cons] at h0 hlen
      omega
    have hrbits : ∀ b ∈ swapRemove (x :: xs) i, b.bits = B := by
      intro b hb
      exact hbits b (hperm0.subset (List.mem_cons_of_mem _ hb))
    have hsum : ((swapRemove (x :: xs) i).map
        (fun b => uint256FromCompactTargetBits b.bits)).sum =
        9 * uint256FromCompactTargetBits B := by
      have hmapc : (swapRemove (x :: xs) i).map
          (fun b => uint256FromCompactTargetBits b.bits) =
          (swapRemove (x :: xs) i).map
            (fun _ => uint256FromCompactTargetBits B) :=
        List.map_congr_left (fun b hb => by rw [hrbits b hb])
      rw [hmapc, List.map_const', hrlen, List.sum_replicate, smul_eq_mul]
    rw [hgi, hgj, hmin_ts, hmax_ts, hrlen, hsum, htpb, hspan]
    rw [if_neg (by omega)]
    have havg : 9 * uint256FromCompactTargetBits B / 9 =
        uint256FromCompactTargetBits B :=
      Nat.mul_div_cancel_left _ (by norm_num)
    rw [havg]
    have hmax9 : Nat.max 9000 1 = 9000 := by norm_num
    rw [hmax9]
    have hnt : uint256FromCompactTargetBits B * 9000 / 1000 / 9 =
        uint256FromCompactTargetBits B := by
      have h1 : uint256FromCompactTargetBits B * 9000 =
          uint256FromCompactTargetBits B * 9 * 1000 := by ring
      rw [h1, Nat.mul_div_cancel _ (by norm_num),
        Nat.mul_div_cancel _ (by norm_num)]
    rw [hnt, if_pos (uint256FromCompactTargetBits_lt B), hround]

theorem claim_C2_witness :
    calculateDifficultyBits steadyMgr steadyWindow = some 0x1d00ffff :=
  claim_C2 steadyMgr steadyWindow 0x1d00ffff 0 9000 (by decide) rfl (by decide)
    (by decide) (by decide) (by decide) (by decide) (by decide) (by decide)
    (by decide)

end Kaspa
